import Mathlib

/-!
Shallow embedding of the desim discrete-event simulation kernel
(src/src/lib.rs) and proofs of its specified properties.

Modelling choices:
* `f64` simulation times become `Rat` (total order, decidable, no NaN;
  the NaN panic branch of `Ord for Event` is therefore unreachable).
* A Rust generator is modelled as a history function
  `List (SimContext T) → Option T`: applied to the list of contexts passed
  to its resumes so far (oldest first), it returns `some y` when the
  generator yields `y` and `none` when it returns (completes). Resuming
  partially applies the new context, which models the in-place mutation of
  the boxed generator performed by `Pin::resume`.
* `BinaryHeap<Reverse<Event<T>>>` is modelled as a list: `push` appends,
  and popping removes the first element of least `time`. The Rust heap's
  tie-break among equal times is implementation defined; the model fixes
  one deterministic choice, and no theorem below depends on it.
* Rust panics (index out of bounds, resume of a completed process, the
  over-release assertion) become `Except StepError`.
-/

namespace Desim

/-- The `Effect` enum: instruction a process yields to the kernel. -/
inductive Effect where
  | TimeOut (t : Rat)
  | Event (time : Rat) (process : Nat)
  | Request (r : Nat)
  | Release (r : Nat)
  | Wait
  | Trace
deriving DecidableEq

/-- The `SimState` trait: user payloads expose an effect and a log flag. -/
class SimState (T : Type) where
  get_effect : T → Effect
  set_effect : T → Effect → T
  should_log : T → Bool

/-- `impl SimState for Effect`: the payload is the effect itself and is
always logged. -/
instance : SimState Effect where
  get_effect e := e
  set_effect _ e := e
  should_log _ := true

/-- The `Event` record: absolute time, target process, state payload. -/
structure Event (T : Type) where
  time : Rat
  process : Nat
  state : T
deriving DecidableEq

/-- The `SimContext` passed to a generator on resume. -/
structure SimContext (T : Type) where
  time : Rat
  state : T
deriving DecidableEq

/-- A process generator, as a function of its resume history (oldest
context first): `none` means the generator completed at that resume. -/
def ProcGen (T : Type) : Type := List (SimContext T) → Option T

/-- Resume a generator with one context: the outcome of `Pin::resume`,
together with the mutated generator on a yield. -/
def ProcGen.resume (g : ProcGen T) (c : SimContext T) : Option (T × ProcGen T) :=
  (g [c]).map (fun y => (y, fun h => g (c :: h)))

/-- A generator that yields the elements of `l` in order, then completes,
ignoring its contexts. -/
def constGen (l : List T) : ProcGen T := fun h => l.get? (h.length - 1)

/-- The `Resource` record: capacity, free units, FIFO deque of waiting
request events (front of the list = front of the deque). -/
structure Resource (T : Type) where
  allocated : Nat
  available : Nat
  queue : List (Event T)

/-- The `Simulation` struct. `future_events` is the priority queue in
push order (see the heap modelling note above). -/
structure Simulation (T : Type) where
  time : Rat
  steps : Nat
  processes : List (Option (ProcGen T))
  future_events : List (Event T)
  processed_events : List (Event T × T)
  resources : List (Resource T)

/-- `Simulation::new` / `Default::default`. -/
def Simulation.new : Simulation T :=
  { time := 0, steps := 0, processes := [], future_events := [],
    processed_events := [], resources := [] }

/-- `BinaryHeap::push`. -/
def heapPush (h : List (Event T)) (e : Event T) : List (Event T) := h ++ [e]

/-- `BinaryHeap::pop` on the model: remove the first element of least
time, returning it and the remaining queue. -/
def popMin : List (Event T) → Option (Event T × List (Event T))
  | [] => none
  | e :: rest =>
    match popMin rest with
    | none => some (e, [])
    | some (m, rest2) =>
      if e.time ≤ m.time then some (e, rest) else some (m, e :: rest2)

/-- `Simulation::create_process`: push the generator, return its id. -/
def create_process (s : Simulation T) (g : ProcGen T) : Simulation T × Nat :=
  ({ s with processes := s.processes ++ [some g] }, s.processes.length)

/-- `Simulation::create_resource`: a fresh resource with `available =
allocated = n` and an empty waiter deque. -/
def create_resource (s : Simulation T) (n : Nat) : Simulation T × Nat :=
  ({ s with resources := s.resources ++ [⟨n, n, []⟩] }, s.resources.length)

/-- `Simulation::schedule_event`. -/
def schedule_event (s : Simulation T) (time : Rat) (process : Nat) (state : T) :
    Simulation T :=
  { s with future_events := heapPush s.future_events ⟨time, process, state⟩ }

/-- `Simulation::log_processed_event`: append to the trace when the
payload opts in. -/
def log_processed_event [SimState T] (s : Simulation T) (event : Event T) (y : T) :
    Simulation T :=
  if SimState.should_log y then
    { s with processed_events := s.processed_events ++ [(event, y)] }
  else s

/-- The panics `Simulation::step` can raise. -/
inductive StepError where
  | badProcessId
  | resumeCompleted
  | badResourceId
  | overRelease
deriving DecidableEq

/-- The `// process event` match of `Simulation::step`: interpret the
effect of the yielded payload `y` on the post-bookkeeping state `s`
(time already advanced, event popped, generator and trace updated).
`event` is the popped event. -/
def stepEffect [SimState T] (s : Simulation T) (event : Event T) (y : T) :
    Except StepError (Simulation T) :=
  match SimState.get_effect y with
  | .TimeOut t =>
    .ok { s with future_events :=
            heapPush s.future_events ⟨s.time + t, event.process, y⟩ }
  | .Event t p =>
    .ok { s with future_events :=
            heapPush s.future_events ⟨t + s.time, p, y⟩ }
  | .Request r =>
    match s.resources.get? r with
    | none => .error .badResourceId
    | some res =>
      if res.available = 0 then
        .ok { s with resources :=
                s.resources.set r { res with queue := res.queue ++ [event] } }
      else
        .ok { s with
              future_events :=
                heapPush s.future_events ⟨s.time, event.process, y⟩,
              resources :=
                s.resources.set r { res with available := res.available - 1 } }
  | .Release r =>
    match s.resources.get? r with
    | none => .error .badResourceId
    | some res =>
      match res.queue with
      | w :: qrest =>
        .ok { s with
              resources := s.resources.set r { res with queue := qrest },
              future_events :=
                heapPush (heapPush s.future_events { w with time := s.time })
                  ⟨s.time, event.process, y⟩ }
      | [] =>
        if res.available < res.allocated then
          .ok { s with
                resources :=
                  s.resources.set r { res with available := res.available + 1 },
                future_events :=
                  heapPush s.future_events ⟨s.time, event.process, y⟩ }
        else .error .overRelease
  | .Wait => .ok s
  | .Trace =>
    .ok { s with future_events :=
            heapPush s.future_events ⟨s.time, event.process, y⟩ }

/-- `Simulation::step`: pop the earliest event, advance time, resume the
process, log the yield, interpret the effect (`stepEffect`). -/
def step [SimState T] (s : Simulation T) : Except StepError (Simulation T) :=
  let s := { s with steps := s.steps + 1 }
  match popMin s.future_events with
  | none => .ok s
  | some (event, rest) =>
    let s := { s with time := event.time, future_events := rest }
    match s.processes.get? event.process with
    | none => .error .badProcessId
    | some none => .error .resumeCompleted
    | some (some g) =>
      match g.resume ⟨s.time, event.state⟩ with
      | none =>
        .ok { s with processes := s.processes.set event.process none }
      | some (y, k) =>
        let s := { s with processes := s.processes.set event.process (some k) }
        let s := log_processed_event s event y
        stepEffect s event y

/-- The `EndCondition` enum. -/
inductive EndCondition where
  | Time (t : Rat)
  | NoEvents
  | NSteps (n : Nat)

/-- `Simulation::check_ending_condition`. -/
def check_ending_condition (s : Simulation T) : EndCondition → Bool
  | .Time t => decide (t ≤ s.time)
  | .NoEvents => s.future_events.length = 0
  | .NSteps n => s.steps = n

/-- Failure modes of the fuelled `run` loop: a panic inside `step`, or
fuel exhaustion (modelling non-termination of the Rust loop). -/
inductive RunError where
  | outOfFuel
  | stepFailed (e : StepError)
deriving DecidableEq

/-- `Simulation::run`, with explicit fuel: check the end condition, and
when it does not hold yet, step and loop. -/
def run [SimState T] : Nat → Simulation T → EndCondition → Except RunError (Simulation T)
  | 0, _, _ => .error .outOfFuel
  | fuel + 1, s, ec =>
    if check_ending_condition s ec then .ok s
    else
      match step s with
      | .error e => .error (.stepFailed e)
      | .ok s2 => run fuel s2 ec

/-! ### Basic lemmas about the kernel operations -/

theorem log_processed_event_steps [SimState T] (s : Simulation T) (e : Event T) (y : T) :
    (log_processed_event s e y).steps = s.steps := by
  unfold log_processed_event; split <;> rfl

theorem log_processed_event_time [SimState T] (s : Simulation T) (e : Event T) (y : T) :
    (log_processed_event s e y).time = s.time := by
  unfold log_processed_event; split <;> rfl

theorem log_processed_event_processes [SimState T] (s : Simulation T) (e : Event T) (y : T) :
    (log_processed_event s e y).processes = s.processes := by
  unfold log_processed_event; split <;> rfl

theorem log_processed_event_future [SimState T] (s : Simulation T) (e : Event T) (y : T) :
    (log_processed_event s e y).future_events = s.future_events := by
  unfold log_processed_event; split <;> rfl

theorem log_processed_event_resources [SimState T] (s : Simulation T) (e : Event T) (y : T) :
    (log_processed_event s e y).resources = s.resources := by
  unfold log_processed_event; split <;> rfl

theorem log_processed_event_trace [SimState T] (s : Simulation T) (e : Event T) (y : T) :
    (log_processed_event s e y).processed_events =
      s.processed_events ++ (if SimState.should_log y then [(e, y)] else []) := by
  unfold log_processed_event; split <;> simp

/-- `log_processed_event` as a single record update. -/
theorem log_processed_event_eq [SimState T] (s : Simulation T) (e : Event T) (y : T) :
    log_processed_event s e y =
      { s with processed_events :=
          s.processed_events ++ (if SimState.should_log y then [(e, y)] else []) } := by
  unfold log_processed_event
  split <;> simp_all

/-- A step with an empty priority queue only increments the counter. -/
theorem step_of_empty [SimState T] (s : Simulation T) (h : s.future_events = []) :
    step s = .ok { s with steps := s.steps + 1 } := by
  unfold step
  simp only [h]
  rfl

/-- Effect interpretation never touches the step counter. -/
theorem stepEffect_steps [SimState T] {s s2 : Simulation T} {e : Event T} {y : T}
    (h : stepEffect s e y = .ok s2) : s2.steps = s.steps := by
  unfold stepEffect at h
  repeat' split at h
  all_goals cases h
  all_goals rfl

/-- Effect interpretation never changes the simulation time. -/
theorem stepEffect_time [SimState T] {s s2 : Simulation T} {e : Event T} {y : T}
    (h : stepEffect s e y = .ok s2) : s2.time = s.time := by
  unfold stepEffect at h
  repeat' split at h
  all_goals cases h
  all_goals rfl

/-- Effect interpretation never changes the process table. -/
theorem stepEffect_processes [SimState T] {s s2 : Simulation T} {e : Event T} {y : T}
    (h : stepEffect s e y = .ok s2) : s2.processes = s.processes := by
  unfold stepEffect at h
  repeat' split at h
  all_goals cases h
  all_goals rfl

/-- Effect interpretation never changes the trace log. -/
theorem stepEffect_trace [SimState T] {s s2 : Simulation T} {e : Event T} {y : T}
    (h : stepEffect s e y = .ok s2) : s2.processed_events = s.processed_events := by
  unfold stepEffect at h
  repeat' split at h
  all_goals cases h
  all_goals rfl

/-- Every successful step increments the step counter by exactly one. -/
theorem step_steps [SimState T] {s s2 : Simulation T} (h : step s = .ok s2) :
    s2.steps = s.steps + 1 := by
  unfold step at h
  dsimp only at h
  repeat' split at h
  · cases h; rfl
  · cases h
  · cases h
  · cases h; rfl
  · simp [stepEffect_steps h, log_processed_event_steps]

/-- Characterization of a step whose popped event's process yields:
the result is `stepEffect` applied to the bookkept state. -/
theorem step_yield_eq [SimState T] {s : Simulation T} {event : Event T}
    {rest : List (Event T)} {g : ProcGen T} {y : T} {k : ProcGen T}
    (hpop : popMin s.future_events = some (event, rest))
    (hget : s.processes.get? event.process = some (some g))
    (hres : g.resume ⟨event.time, event.state⟩ = some (y, k)) :
    step s =
      stepEffect
        { s with
          steps := s.steps + 1, time := event.time, future_events := rest,
          processes := s.processes.set event.process (some k),
          processed_events :=
            s.processed_events ++
              (if SimState.should_log y then [(event, y)] else []) }
        event y := by
  unfold step
  dsimp only
  rw [hpop]
  dsimp only
  rw [hget]
  dsimp only
  rw [hres]
  dsimp only
  rw [log_processed_event_eq]

/-- Characterization of a step whose popped event's process completes:
no logging, no rescheduling, and the slot is emptied. -/
theorem step_complete_eq [SimState T] {s : Simulation T} {event : Event T}
    {rest : List (Event T)} {g : ProcGen T}
    (hpop : popMin s.future_events = some (event, rest))
    (hget : s.processes.get? event.process = some (some g))
    (hres : g.resume ⟨event.time, event.state⟩ = none) :
    step s =
      .ok { s with
            steps := s.steps + 1, time := event.time, future_events := rest,
            processes := s.processes.set event.process none } := by
  unfold step
  dsimp only
  rw [hpop]
  dsimp only
  rw [hget]
  dsimp only
  rw [hres]

/-- `run` only returns `ok` on a state satisfying the end condition. -/
theorem run_ok_check [SimState T] {fuel : Nat} {s s2 : Simulation T} {ec : EndCondition}
    (h : run fuel s ec = .ok s2) : check_ending_condition s2 ec = true := by
  induction fuel generalizing s with
  | zero => cases h
  | succ n ih =>
    unfold run at h
    split at h
    next hc => cases h; exact hc
    next hc =>
      split at h
      next => cases h
      next => exact ih h

/-- `popMin` returns `none` only on the empty queue. -/
theorem popMin_eq_none {l : List (Event T)} (h : popMin l = none) : l = [] := by
  cases l with
  | nil => rfl
  | cons a l =>
    simp only [popMin] at h
    split at h
    · cases h
    · split at h <;> cases h

/-- `popMin` returns a member of the queue of least time, and the
remaining queue consists of members of the original one. -/
theorem popMin_spec {l : List (Event T)} {e : Event T} {rest : List (Event T)}
    (h : popMin l = some (e, rest)) :
    e ∈ l ∧ (∀ x ∈ l, e.time ≤ x.time) ∧ (∀ x ∈ rest, x ∈ l) := by
  induction l generalizing e rest with
  | nil => cases h
  | cons a l ih =>
    simp only [popMin] at h
    split at h
    next hm =>
      have hl : l = [] := popMin_eq_none hm
      subst hl
      cases h
      refine ⟨?_, ?_, ?_⟩
      · exact List.mem_singleton_self _
      · intro x hx
        rw [List.mem_singleton.1 hx]
      · intro x hx
        cases hx
    next m r2 hm =>
      obtain ⟨hmem, hmin, hsub⟩ := ih hm
      split at h
      next hle =>
        cases h
        refine ⟨List.mem_cons_self _ _, ?_, ?_⟩
        · intro x hx
          rcases List.mem_cons.1 hx with h1 | h1
          · rw [h1]
          · exact le_trans hle (hmin x h1)
        · intro x hx
          exact List.mem_cons_of_mem _ hx
      next hnle =>
        cases h
        refine ⟨List.mem_cons_of_mem _ hmem, ?_, ?_⟩
        · intro x hx
          rcases List.mem_cons.1 hx with h1 | h1
          · rw [h1]
            exact le_of_not_le hnle
          · exact hmin x h1
        · intro x hx
          rcases List.mem_cons.1 hx with h1 | h1
          · rw [h1]
            exact List.mem_cons_self _ _
          · exact List.mem_cons_of_mem _ (hsub x h1)

/-- Recovering the continuation from a successful resume. -/
theorem ProcGen.resume_eq_some {T : Type} {g : ProcGen T} {c : SimContext T} {y : T}
    {k : ProcGen T} (h : g.resume c = some (y, k)) :
    g [c] = some y ∧ k = fun h2 => g (c :: h2) := by
  unfold ProcGen.resume at h
  cases hg : g [c] with
  | none => rw [hg] at h; cases h
  | some y0 =>
    rw [hg] at h
    cases h
    exact ⟨rfl, rfl⟩

/-- Master case analysis for a successful `step`: either the queue was
empty, or an event was dispatched whose process completed, or yielded;
in the last case the result is `stepEffect` applied to the bookkept
state. -/
theorem step_cases [SimState T] {s s2 : Simulation T} (h : step s = .ok s2) :
    (s.future_events = [] ∧ s2 = { s with steps := s.steps + 1 }) ∨
    (∃ event rest g,
      popMin s.future_events = some (event, rest) ∧
      s.processes.get? event.process = some (some g) ∧
      ((g.resume ⟨event.time, event.state⟩ = none ∧
         s2 = { s with
                steps := s.steps + 1, time := event.time,
                future_events := rest,
                processes := s.processes.set event.process none }) ∨
       (∃ y k, g.resume ⟨event.time, event.state⟩ = some (y, k) ∧
         stepEffect
           { s with
             steps := s.steps + 1, time := event.time, future_events := rest,
             processes := s.processes.set event.process (some k),
             processed_events :=
               s.processed_events ++
                 (if SimState.should_log y then [(event, y)] else []) }
           event y = .ok s2))) := by
  cases hpop : popMin s.future_events with
  | none =>
    left
    have hq := popMin_eq_none hpop
    rw [step_of_empty s hq] at h
    cases h
    exact ⟨hq, rfl⟩
  | some pr =>
    obtain ⟨event, rest⟩ := pr
    right
    cases hget : s.processes.get? event.process with
    | none =>
      exfalso
      unfold step at h
      dsimp only at h
      rw [hpop] at h
      dsimp only at h
      rw [hget] at h
      cases h
    | some og =>
      cases og with
      | none =>
        exfalso
        unfold step at h
        dsimp only at h
        rw [hpop] at h
        dsimp only at h
        rw [hget] at h
        cases h
      | some g =>
        refine ⟨event, rest, g, rfl, hget, ?_⟩
        cases hres : g.resume ⟨event.time, event.state⟩ with
        | none =>
          left
          rw [step_complete_eq hpop hget hres] at h
          cases h
          exact ⟨rfl, rfl⟩
        | some yk =>
          obtain ⟨y, k⟩ := yk
          right
          rw [step_yield_eq hpop hget hres] at h
          exact ⟨y, k, rfl, h⟩

/-! ### The resource invariant (C2) -/

/-- The per-resource invariant of the claim: the free count never
exceeds the capacity, and free capacity forces an empty waiter deque. -/
def ResInv (res : Resource T) : Prop :=
  res.available ≤ res.allocated ∧ (0 < res.available → res.queue = [])

/-- Effect interpretation preserves the resource invariant. -/
theorem stepEffect_resinv [SimState T] {s s2 : Simulation T} {event : Event T} {y : T}
    (hinv : ∀ res ∈ s.resources, ResInv res)
    (h : stepEffect s event y = .ok s2) :
    ∀ res2 ∈ s2.resources, ResInv res2 := by
  unfold stepEffect at h
  split at h
  · cases h; exact hinv
  · cases h; exact hinv
  · split at h
    · cases h
    · next res hget =>
      split at h
      · next hav =>
        cases h
        intro res2 hres2
        rcases List.mem_or_eq_of_mem_set hres2 with hm | rfl
        · exact hinv res2 hm
        · have hr := hinv res (List.get?_mem hget)
          refine ⟨hr.1, fun hpos => ?_⟩
          exact absurd (show 0 < res.available from hpos) (by omega)
      · next hav =>
        cases h
        intro res2 hres2
        rcases List.mem_or_eq_of_mem_set hres2 with hm | rfl
        · exact hinv res2 hm
        · have hr := hinv res (List.get?_mem hget)
          have h1 := hr.1
          refine ⟨show res.available - 1 ≤ res.allocated by omega, fun hpos => ?_⟩
          have hpos2 : 0 < res.available - 1 := hpos
          exact hr.2 (by omega)
  · split at h
    · cases h
    · next res hget =>
      split at h
      · next w qrest hq =>
        cases h
        intro res2 hres2
        rcases List.mem_or_eq_of_mem_set hres2 with hm | rfl
        · exact hinv res2 hm
        · have hr := hinv res (List.get?_mem hget)
          refine ⟨hr.1, fun hpos => ?_⟩
          have hpos2 : 0 < res.available := hpos
          have h2 := hr.2 hpos2
          rw [hq] at h2
          cases h2
      · next hq =>
        split at h
        · next hlt =>
          cases h
          intro res2 hres2
          rcases List.mem_or_eq_of_mem_set hres2 with hm | rfl
          · exact hinv res2 hm
          · refine ⟨show res.available + 1 ≤ res.allocated by omega, fun _ => ?_⟩
            exact hq
        · cases h
  · cases h; exact hinv
  · cases h; exact hinv

/-- A successful `step` preserves the resource invariant. -/
theorem step_resinv [SimState T] {s s2 : Simulation T}
    (hinv : ∀ res ∈ s.resources, ResInv res) (h : step s = .ok s2) :
    ∀ res2 ∈ s2.resources, ResInv res2 := by
  rcases step_cases h with ⟨hq, rfl⟩ | ⟨event, rest, g, hpop, hget, hrest⟩
  · exact hinv
  · rcases hrest with ⟨hres, rfl⟩ | ⟨y, k, hres, heff⟩
    · exact hinv
    · refine stepEffect_resinv ?_ heff
      exact hinv

/-- A successful `run` preserves the resource invariant. -/
theorem run_resinv [SimState T] {fuel : Nat} {s s2 : Simulation T} {ec : EndCondition}
    (hinv : ∀ res ∈ s.resources, ResInv res) (h : run fuel s ec = .ok s2) :
    ∀ res2 ∈ s2.resources, ResInv res2 := by
  induction fuel generalizing s with
  | zero => cases h
  | succ n ih =>
    unfold run at h
    split at h
    · cases h; exact hinv
    · split at h
      · cases h
      · next s3 hstep => exact ih (step_resinv hinv hstep) h

/-- States reachable through the public operations of the kernel. -/
inductive Reachable [SimState T] : Simulation T → Prop where
  | new : Reachable Simulation.new
  | create_process {s : Simulation T} (g : ProcGen T) (h : Reachable s) :
      Reachable (create_process s g).1
  | create_resource {s : Simulation T} (n : Nat) (h : Reachable s) :
      Reachable (create_resource s n).1
  | schedule_event {s : Simulation T} (t : Rat) (p : Nat) (st : T) (h : Reachable s) :
      Reachable (schedule_event s t p st)
  | step {s s2 : Simulation T} (h : Reachable s) (hs : step s = .ok s2) :
      Reachable s2
  | run {s s2 : Simulation T} (fuel : Nat) (ec : EndCondition) (h : Reachable s)
      (hr : run fuel s ec = .ok s2) : Reachable s2

/-! ### Time monotonicity (C7) -/

/-- Deconstructing membership in a pushed queue. -/
theorem mem_heapPush {l : List (Event T)} {e x : Event T} (hx : x ∈ heapPush l e) :
    x ∈ l ∨ x = e := by
  unfold heapPush at hx
  rcases List.mem_append.1 hx with hm | hm
  · exact Or.inl hm
  · exact Or.inr (List.mem_singleton.1 hm)

/-- Effects whose relative delay is non-negative. -/
def NonnegDelta : Effect → Prop
  | .TimeOut t => 0 ≤ t
  | .Event t _ => 0 ≤ t
  | _ => True

/-- A generator all of whose yields carry non-negative delays. -/
def GoodGen [SimState T] (g : ProcGen T) : Prop :=
  ∀ h y, g h = some y → NonnegDelta (SimState.get_effect y)

/-- All live processes of the simulation are `GoodGen`. -/
def GoodProcs [SimState T] (s : Simulation T) : Prop :=
  ∀ og ∈ s.processes, ∀ g, og = some g → GoodGen g

/-- Every queued event is at or after the current simulation time. -/
def TimeInv (s : Simulation T) : Prop :=
  ∀ e ∈ s.future_events, s.time ≤ e.time

/-- Effect interpretation preserves the queue/time invariant when the
yielded effect has a non-negative delay. -/
theorem stepEffect_timeinv [SimState T] {s s2 : Simulation T} {event : Event T} {y : T}
    (hT : TimeInv s) (hy : NonnegDelta (SimState.get_effect y))
    (h : stepEffect s event y = .ok s2) : TimeInv s2 := by
  unfold stepEffect at h
  split at h
  · next t heq =>
    cases h
    intro x hx
    rcases mem_heapPush hx with hm | rfl
    · exact hT x hm
    · show s.time ≤ s.time + t
      have ht : (0:Rat) ≤ t := by rw [heq] at hy; exact hy
      linarith
  · next t p heq =>
    cases h
    intro x hx
    rcases mem_heapPush hx with hm | rfl
    · exact hT x hm
    · show s.time ≤ t + s.time
      have ht : (0:Rat) ≤ t := by rw [heq] at hy; exact hy
      linarith
  · split at h
    · cases h
    · split at h
      · cases h
        intro x hx
        exact hT x hx
      · cases h
        intro x hx
        rcases mem_heapPush hx with hm | rfl
        · exact hT x hm
        · exact le_refl _
  · split at h
    · cases h
    · split at h
      · cases h
        intro x hx
        rcases mem_heapPush hx with hm | rfl
        · rcases mem_heapPush hm with hm2 | rfl
          · exact hT x hm2
          · exact le_refl _
        · exact le_refl _
      · split at h
        · cases h
          intro x hx
          rcases mem_heapPush hx with hm | rfl
          · exact hT x hm
          · exact le_refl _
        · cases h
  · cases h
    intro x hx
    exact hT x hx
  · cases h
    intro x hx
    rcases mem_heapPush hx with hm | rfl
    · exact hT x hm
    · exact le_refl _

/-! ### FIFO grants over the waiters deque (C4) -/

/-- The waiters deque of resource `r` in a resources table. -/
def queueOf (l : List (Resource T)) (r : Nat) : List (Event T) :=
  match l.get? r with
  | some res => res.queue
  | none => []

theorem queueOf_eq_some {l : List (Resource T)} {r : Nat} {res : Resource T}
    (h : l.get? r = some res) : queueOf l r = res.queue := by
  unfold queueOf
  rw [h]

theorem queueOf_set_self {l : List (Resource T)} {r : Nat} {res : Resource T}
    (res2 : Resource T) (h : l.get? r = some res) :
    queueOf (l.set r res2) r = res2.queue := by
  unfold queueOf
  rw [List.get?_eq_getElem?, List.getElem?_set_self', ← List.get?_eq_getElem?, h]
  rfl

theorem queueOf_set_ne {l : List (Resource T)} {r r2 : Nat} (res2 : Resource T)
    (h : r ≠ r2) : queueOf (l.set r res2) r2 = queueOf l r2 := by
  unfold queueOf
  rw [List.get?_eq_getElem?, List.getElem?_set_ne h, ← List.get?_eq_getElem?]

/-- Events entering the waiters deque of `r` during one step (observed
as the new tail of the deque). -/
def stepEnters (s s2 : Simulation T) (r : Nat) : List (Event T) :=
  (queueOf s2.resources r).drop (queueOf s.resources r).length

/-- Events granted (popped from the head of the waiters deque of `r`)
during one step. -/
def stepGrants (s s2 : Simulation T) (r : Nat) : List (Event T) :=
  (queueOf s.resources r).take
    ((queueOf s.resources r).length - (queueOf s2.resources r).length)

/-- One effect interpretation either leaves a waiters deque unchanged,
pushes the dispatched event on its tail, or pops its head. -/
theorem stepEffect_queue_shape [SimState T] {s s2 : Simulation T} {event : Event T}
    {y : T} (h : stepEffect s event y = .ok s2) (r : Nat) :
    queueOf s2.resources r = queueOf s.resources r ∨
    (∃ e, queueOf s2.resources r = queueOf s.resources r ++ [e]) ∨
    (∃ w, queueOf s.resources r = w :: queueOf s2.resources r) := by
  unfold stepEffect at h
  split at h
  · cases h; exact Or.inl rfl
  · cases h; exact Or.inl rfl
  · next r1 heq =>
    split at h
    · cases h
    · next res hget =>
      split at h
      · next hav =>
        cases h
        by_cases hrr : r1 = r
        · subst hrr
          refine Or.inr (Or.inl ⟨event, ?_⟩)
          rw [show queueOf (s.resources.set r1
                { res with queue := res.queue ++ [event] }) r1 =
              res.queue ++ [event] from queueOf_set_self _ hget,
            queueOf_eq_some hget]
        · exact Or.inl (queueOf_set_ne _ hrr)
      · next hav =>
        cases h
        by_cases hrr : r1 = r
        · subst hrr
          refine Or.inl ?_
          rw [show queueOf (s.resources.set r1
                { res with available := res.available - 1 }) r1 =
              res.queue from queueOf_set_self _ hget,
            queueOf_eq_some hget]
        · exact Or.inl (queueOf_set_ne _ hrr)
  · next r1 heq =>
    split at h
    · cases h
    · next res hget =>
      split at h
      · next w qrest hq =>
        cases h
        by_cases hrr : r1 = r
        · subst hrr
          refine Or.inr (Or.inr ⟨w, ?_⟩)
          rw [show queueOf (s.resources.set r1 { res with queue := qrest }) r1 =
              qrest from queueOf_set_self _ hget,
            queueOf_eq_some hget, hq]
        · exact Or.inl (queueOf_set_ne _ hrr)
      · next hq =>
        split at h
        · next hlt =>
          cases h
          by_cases hrr : r1 = r
          · subst hrr
            refine Or.inl ?_
            rw [show queueOf (s.resources.set r1
                  { res with available := res.available + 1 }) r1 =
                res.queue from queueOf_set_self _ hget,
              queueOf_eq_some hget]
          · exact Or.inl (queueOf_set_ne _ hrr)
        · cases h
  · cases h; exact Or.inl rfl
  · cases h; exact Or.inl rfl

/-- One `step` either leaves a waiters deque unchanged, pushes one event
on its tail, or pops its head. -/
theorem step_queue_shape [SimState T] {s s2 : Simulation T} (h : step s = .ok s2)
    (r : Nat) :
    queueOf s2.resources r = queueOf s.resources r ∨
    (∃ e, queueOf s2.resources r = queueOf s.resources r ++ [e]) ∨
    (∃ w, queueOf s.resources r = w :: queueOf s2.resources r) := by
  rcases step_cases h with ⟨hq, rfl⟩ | ⟨event, rest, g, hpop, hget, hrest⟩
  · exact Or.inl rfl
  · rcases hrest with ⟨hres, rfl⟩ | ⟨y, k, hres, heff⟩
    · exact Or.inl rfl
    · exact stepEffect_queue_shape heff r

/-- Deque conservation across one step: the old deque followed by the
entries equals the grants followed by the new deque. -/
theorem step_queue_conservation [SimState T] {s s2 : Simulation T}
    (h : step s = .ok s2) (r : Nat) :
    queueOf s.resources r ++ stepEnters s s2 r =
      stepGrants s s2 r ++ queueOf s2.resources r := by
  rcases step_queue_shape h r with heq | ⟨e, heq⟩ | ⟨w, heq⟩
  · unfold stepEnters stepGrants
    rw [heq]
    simp
  · unfold stepEnters stepGrants
    rw [heq]
    rw [List.drop_left]
    have h0 : (queueOf s.resources r).length -
        (queueOf s.resources r ++ [e]).length = 0 := by simp
    rw [h0, List.take_zero, List.nil_append]
  · unfold stepEnters stepGrants
    rw [heq]
    rw [List.drop_eq_nil_of_le (by simp)]
    have h1 : (w :: queueOf s2.resources r).length -
        (queueOf s2.resources r).length = 1 := by simp
    rw [h1]
    simp

/-- A list of states each reached from the previous one by a successful
`step`. -/
def IsStepChain [SimState T] : Simulation T → List (Simulation T) → Prop
  | _, [] => True
  | s, s2 :: rest => step s = .ok s2 ∧ IsStepChain s2 rest

/-- All events entering the waiters deque of `r` along a chain, in entry
order. -/
def chainEnters (r : Nat) : Simulation T → List (Simulation T) → List (Event T)
  | _, [] => []
  | s, s2 :: rest => stepEnters s s2 r ++ chainEnters r s2 rest

/-- All events granted from the waiters deque of `r` along a chain, in
grant order. -/
def chainGrants (r : Nat) : Simulation T → List (Simulation T) → List (Event T)
  | _, [] => []
  | s, s2 :: rest => stepGrants s s2 r ++ chainGrants r s2 rest

/-- The final state of a chain. -/
def chainEnd : Simulation T → List (Simulation T) → Simulation T
  | s, [] => s
  | _, s2 :: rest => chainEnd s2 rest

/-- Deque conservation along a chain of steps. -/
theorem chain_queue_conservation [SimState T] {s : Simulation T}
    {l : List (Simulation T)} (hc : IsStepChain s l) (r : Nat) :
    queueOf s.resources r ++ chainEnters r s l =
      chainGrants r s l ++ queueOf (chainEnd s l).resources r := by
  induction l generalizing s with
  | nil => simp [chainEnters, chainGrants, chainEnd]
  | cons s2 rest ih =>
    obtain ⟨hstep, hrest⟩ := hc
    have h1 := step_queue_conservation hstep r
    have h2 := ih hrest
    show queueOf s.resources r ++ (stepEnters s s2 r ++ chainEnters r s2 rest) =
      (stepGrants s s2 r ++ chainGrants r s2 rest) ++
        queueOf (chainEnd s2 rest).resources r
    calc queueOf s.resources r ++ (stepEnters s s2 r ++ chainEnters r s2 rest)
        = (queueOf s.resources r ++ stepEnters s s2 r) ++ chainEnters r s2 rest := by
          rw [List.append_assoc]
      _ = (stepGrants s s2 r ++ queueOf s2.resources r) ++ chainEnters r s2 rest := by
          rw [h1]
      _ = stepGrants s s2 r ++ (queueOf s2.resources r ++ chainEnters r s2 rest) := by
          rw [List.append_assoc]
      _ = stepGrants s s2 r ++
            (chainGrants r s2 rest ++ queueOf (chainEnd s2 rest).resources r) := by
          rw [h2]
      _ = (stepGrants s s2 r ++ chainGrants r s2 rest) ++
            queueOf (chainEnd s2 rest).resources r := by
          rw [List.append_assoc]

/-! ### Concrete scenarios used by witnesses and counterexamples -/

/-- A process that requests resource 0 at every resume. -/
def reqGen : ProcGen Effect := fun _ => some (.Request 0)

/-- A process that releases resource 0 at every resume. -/
def relGen : ProcGen Effect := fun _ => some (.Release 0)

/-- One process about to request resource 0, which has a free unit. -/
def simReqFree : Simulation Effect :=
  { time := 0, steps := 0, processes := [some reqGen],
    future_events := [⟨5, 0, .Wait⟩], processed_events := [],
    resources := [⟨1, 1, []⟩] }

/-- One process about to request resource 0, whose single unit is held. -/
def simReqBusy : Simulation Effect :=
  { time := 0, steps := 0, processes := [some reqGen],
    future_events := [⟨5, 0, .Wait⟩], processed_events := [],
    resources := [⟨1, 0, []⟩] }

/-- One process about to release resource 0, on which an event of
process 1 is waiting. -/
def simRel : Simulation Effect :=
  { time := 0, steps := 0, processes := [some relGen],
    future_events := [⟨7, 0, .Wait⟩], processed_events := [],
    resources := [⟨1, 0, [⟨2, 1, .Wait⟩]⟩] }

/-- One process that completes at its first resume. -/
def simDone : Simulation Effect :=
  { time := 0, steps := 0, processes := [some (constGen [])],
    future_events := [⟨3, 0, .Wait⟩], processed_events := [],
    resources := [] }

/-- One holder-less process about to request the busy resource 0 and one
process about to release it: a contention chain for the FIFO witness. -/
def simFifo : Simulation Effect :=
  { time := 0, steps := 0,
    processes := [some reqGen, some relGen],
    future_events := [⟨1, 0, .Wait⟩, ⟨2, 1, .Wait⟩],
    processed_events := [],
    resources := [⟨1, 0, []⟩] }

/-- `simFifo` after one step: the request of process 0 entered the
waiters deque. -/
def simFifo1 : Simulation Effect :=
  { time := 1, steps := 1,
    processes := [some (fun h => reqGen (⟨1, .Wait⟩ :: h)), some relGen],
    future_events := [⟨2, 1, .Wait⟩],
    processed_events := [(⟨1, 0, .Wait⟩, .Request 0)],
    resources := [⟨1, 0, [⟨1, 0, .Wait⟩]⟩] }

/-- `simFifo` after two steps: the release of process 1 granted the
waiting request. -/
def simFifo2 : Simulation Effect :=
  { time := 2, steps := 2,
    processes := [some (fun h => reqGen (⟨1, .Wait⟩ :: h)),
                  some (fun h => relGen (⟨2, .Wait⟩ :: h))],
    future_events := [⟨2, 0, .Wait⟩, ⟨2, 1, .Release 0⟩],
    processed_events := [(⟨1, 0, .Wait⟩, .Request 0), (⟨2, 1, .Wait⟩, .Release 0)],
    resources := [⟨1, 0, []⟩] }

/-- A process that yields `Wait` at every resume. -/
def waitGen : ProcGen Effect := fun _ => some .Wait

/-- A waiting process with one event scheduled at time 5. -/
def simPast : Simulation Effect :=
  { time := 0, steps := 0, processes := [some waitGen],
    future_events := [⟨5, 0, .Wait⟩], processed_events := [],
    resources := [] }

/-- `simPast` after one step: the event at time 5 was dispatched. -/
def simPastStepped : Simulation Effect :=
  { time := 5, steps := 1,
    processes := [some (fun h => waitGen (⟨5, .Wait⟩ :: h))],
    future_events := [],
    processed_events := [(⟨5, 0, .Wait⟩, .Wait)],
    resources := [] }

/-- `waitGen` only yields delay-free effects. -/
theorem waitGen_good : GoodGen waitGen := fun _ _ hy => by
  cases hy
  exact trivial

/-- The single queued event of `simPast` lies in the future. -/
theorem simPast_timeinv : TimeInv simPast := by
  intro e he
  rw [List.mem_singleton.1 he]
  decide

/-- The single process of `simPast` is delay-free. -/
theorem simPast_good : GoodProcs simPast := by
  intro og hog g hg
  rw [List.mem_singleton.1 hog] at hg
  cases hg
  exact waitGen_good

/-! ### Claim theorems -/

/-- C2: in every simulation reachable through the public operations
(`new`, `create_process`, `create_resource`, `schedule_event`, `step`,
`run`), every resource satisfies `0 ≤ available ≤ allocated`, and
`available > 0` implies its waiter deque is empty. -/
theorem c2_resource_invariant [SimState T] {s : Simulation T} (h : Reachable s) :
    ∀ res ∈ s.resources,
      0 ≤ res.available ∧ res.available ≤ res.allocated ∧
        (0 < res.available → res.queue = []) := by
  have main : ∀ res ∈ s.resources, ResInv res := by
    induction h with
    | new => intro res hres; cases hres
    | create_process g h ih => exact ih
    | create_resource n h ih =>
      intro res hres
      rcases List.mem_append.1 hres with hm | hm
      · exact ih res hm
      · rw [List.mem_singleton.1 hm]
        exact ⟨le_refl n, fun _ => rfl⟩
    | schedule_event t p st h ih => exact ih
    | step h hs ih => exact step_resinv ih hs
    | run fuel ec h hr ih => exact run_resinv ih hr
  intro res hres
  obtain ⟨h1, h2⟩ := main res hres
  exact ⟨Nat.zero_le _, h1, h2⟩

/-- Witness for C2 on the reachable simulation with one fresh resource
of capacity 1. -/
theorem c2_resource_invariant_witness :
    (0:Nat) ≤ 1 ∧ (1:Nat) ≤ 1 ∧ ((0:Nat) < 1 → ([] : List (Event Effect)) = []) :=
  c2_resource_invariant
    (Reachable.create_resource 1
      (Reachable.new : Reachable (Simulation.new : Simulation Effect)))
    ⟨1, 1, []⟩ (by simp [create_resource, Simulation.new])

/-- C1 counterexample: with no unit available, the kernel pushes the
original popped event — whose state payload is `Wait` — onto the waiters
deque, not the event `{time, e.process, y}` with the yielded payload
`y = Request 0` that the claim describes. -/
theorem c1_request_counterexample :
    ((step simReqBusy).toOption.bind (fun s2 => s2.resources.get? 0)).map
        Resource.queue = some [⟨5, 0, Effect.Wait⟩] ∧
      Effect.Wait ≠ Effect.Request 0 :=
  ⟨rfl, by decide⟩

/-- C1 (amended): dispatching an event `e` whose process yields `y` with
effect `Request r`: if `resources[r].available > 0` the kernel decrements
`available` and enqueues `{time, e.process, y}` into the priority queue;
otherwise it pushes the original popped event `e` itself (time and
process of `e`, and the state payload of `e`, not `y`) onto the tail of
`resources[r].waiters`. -/
theorem c1_request_dispatch [SimState T] {s : Simulation T} {event : Event T}
    {rest : List (Event T)} {g : ProcGen T} {y : T} {k : ProcGen T} {r : Nat}
    {res : Resource T}
    (hpop : popMin s.future_events = some (event, rest))
    (hget : s.processes.get? event.process = some (some g))
    (hres : g.resume ⟨event.time, event.state⟩ = some (y, k))
    (heff : SimState.get_effect y = .Request r)
    (hr : s.resources.get? r = some res) :
    (0 < res.available →
      step s = .ok
        { time := event.time, steps := s.steps + 1,
          processes := s.processes.set event.process (some k),
          future_events := heapPush rest ⟨event.time, event.process, y⟩,
          processed_events :=
            s.processed_events ++
              (if SimState.should_log y then [(event, y)] else []),
          resources :=
            s.resources.set r { res with available := res.available - 1 } }) ∧
    (res.available = 0 →
      step s = .ok
        { time := event.time, steps := s.steps + 1,
          processes := s.processes.set event.process (some k),
          future_events := rest,
          processed_events :=
            s.processed_events ++
              (if SimState.should_log y then [(event, y)] else []),
          resources :=
            s.resources.set r { res with queue := res.queue ++ [event] } }) := by
  rw [step_yield_eq hpop hget hres]
  unfold stepEffect
  rw [heff]
  dsimp only
  rw [hr]
  dsimp only
  constructor
  · intro hav
    rw [if_neg (by omega)]
  · intro hav
    rw [if_pos hav]

/-- Witness for C1 on `simReqFree`: the request is granted immediately. -/
theorem c1_request_dispatch_witness :
    step simReqFree = .ok
      { time := 5, steps := 1,
        processes := [some (fun h => reqGen (⟨5, Effect.Wait⟩ :: h))],
        future_events := [⟨5, 0, Effect.Request 0⟩],
        processed_events := [(⟨5, 0, Effect.Wait⟩, Effect.Request 0)],
        resources := [⟨1, 0, []⟩] } :=
  (c1_request_dispatch
    (show popMin simReqFree.future_events = some (⟨5, 0, Effect.Wait⟩, []) from rfl)
    rfl rfl rfl rfl).1 (by decide)

/-- C3: dispatching a yield with effect `Release r`: if the waiters
deque is non-empty the kernel pops its head `w`, rewrites `w.time` to
the current time, enqueues `w`, and leaves `available` unchanged; if the
deque is empty and `available = allocated` the step is the fatal
over-release assertion failure; if the deque is empty and
`available < allocated`, `available` is incremented. In both non-fatal
sub-cases the releaser itself is re-enqueued at the current time. -/
theorem c3_release_dispatch [SimState T] {s : Simulation T} {event : Event T}
    {rest : List (Event T)} {g : ProcGen T} {y : T} {k : ProcGen T} {r : Nat}
    {res : Resource T}
    (hpop : popMin s.future_events = some (event, rest))
    (hget : s.processes.get? event.process = some (some g))
    (hres : g.resume ⟨event.time, event.state⟩ = some (y, k))
    (heff : SimState.get_effect y = .Release r)
    (hr : s.resources.get? r = some res) :
    (∀ w qrest, res.queue = w :: qrest →
      step s = .ok
        { time := event.time, steps := s.steps + 1,
          processes := s.processes.set event.process (some k),
          future_events :=
            heapPush (heapPush rest { w with time := event.time })
              ⟨event.time, event.process, y⟩,
          processed_events :=
            s.processed_events ++
              (if SimState.should_log y then [(event, y)] else []),
          resources := s.resources.set r { res with queue := qrest } }) ∧
    (res.queue = [] → res.available < res.allocated →
      step s = .ok
        { time := event.time, steps := s.steps + 1,
          processes := s.processes.set event.process (some k),
          future_events := heapPush rest ⟨event.time, event.process, y⟩,
          processed_events :=
            s.processed_events ++
              (if SimState.should_log y then [(event, y)] else []),
          resources :=
            s.resources.set r { res with available := res.available + 1 } }) ∧
    (res.queue = [] → res.available = res.allocated →
      step s = .error .overRelease) := by
  rw [step_yield_eq hpop hget hres]
  unfold stepEffect
  rw [heff]
  dsimp only
  rw [hr]
  dsimp only
  refine ⟨?_, ?_, ?_⟩
  · intro w qrest hq
    rw [hq]
  · intro hq hlt
    rw [hq]
    dsimp only
    rw [if_pos hlt]
  · intro hq heqa
    rw [hq]
    dsimp only
    rw [if_neg (by omega)]

/-- Witness for C3 on `simRel`: the waiting event of process 1 is woken
at the release time 7 and the releaser is re-enqueued. -/
theorem c3_release_dispatch_witness :
    step simRel = .ok
      { time := 7, steps := 1,
        processes := [some (fun h => relGen (⟨7, Effect.Wait⟩ :: h))],
        future_events := [⟨7, 1, Effect.Wait⟩, ⟨7, 0, Effect.Release 0⟩],
        processed_events := [(⟨7, 0, Effect.Wait⟩, Effect.Release 0)],
        resources := [⟨1, 0, []⟩] } :=
  (c3_release_dispatch
    (show popMin simRel.future_events = some (⟨7, 0, Effect.Wait⟩, []) from rfl)
    rfl rfl rfl rfl).1 ⟨2, 1, Effect.Wait⟩ [] rfl

/-- C6: for a dispatched event whose process yields `y`, the trace grows
by exactly the one entry `(e, y)` when `y.should_log()` holds and by
nothing otherwise (the logged payload is the yield as it was before
effect interpretation); when the process completes instead, nothing is
logged, nothing is rescheduled, and the process slot is emptied. -/
theorem c6_dispatch_logging [SimState T] {s : Simulation T} {event : Event T}
    {rest : List (Event T)} {g : ProcGen T}
    (hpop : popMin s.future_events = some (event, rest))
    (hget : s.processes.get? event.process = some (some g)) :
    (∀ y k s2, g.resume ⟨event.time, event.state⟩ = some (y, k) →
        step s = .ok s2 →
        s2.processed_events =
          s.processed_events ++
            (if SimState.should_log y then [(event, y)] else [])) ∧
    (g.resume ⟨event.time, event.state⟩ = none →
      step s = .ok
        { s with
          steps := s.steps + 1, time := event.time, future_events := rest,
          processes := s.processes.set event.process none }) := by
  constructor
  · intro y k s2 hres hstep
    rw [step_yield_eq hpop hget hres] at hstep
    exact stepEffect_trace hstep
  · intro hres
    exact step_complete_eq hpop hget hres

/-- Witness for C6 on `simDone`: completion empties the slot, logs
nothing and schedules nothing. -/
theorem c6_dispatch_logging_witness :
    step simDone = .ok
      { simDone with
        steps := simDone.steps + 1, time := 3, future_events := [],
        processes := simDone.processes.set 0 none } :=
  (c6_dispatch_logging
    (show popMin simDone.future_events = some (⟨3, 0, Effect.Wait⟩, []) from rfl)
    rfl).2 rfl

/-- C7 counterexample: the claim quantifies over arbitrary interleavings
of `schedule_event`, `step` and `run`, but `schedule_event` can schedule
an event in the past: after dispatching at time 5, scheduling an event at
time 1 and stepping dispatches at time 1 < 5, so dispatched times are not
non-decreasing. -/
theorem c7_monotone_counterexample :
    (step simPast).toOption.map Simulation.time = some 5 ∧
      ((step simPast).toOption.bind
          (fun s1 => (step (schedule_event s1 1 0 .Wait)).toOption)).map
        Simulation.time = some 1 ∧
      ¬ ((5:Rat) ≤ 1) :=
  ⟨rfl, rfl, by decide⟩

/-- C7 (amended): provided every queued event is at or after the current
time (`TimeInv`, which `schedule_event` can break by scheduling in the
past but which holds along uninterfered executions) and all processes
yield only non-negative delays (`GoodProcs`), each successful `step`
leaves the simulation time non-decreasing — the new time is the popped
event's time — and both conditions persist, so dispatch times along any
such run are non-decreasing. -/
theorem c7_dispatch_monotone [SimState T] {s s2 : Simulation T}
    (hT : TimeInv s) (hG : GoodProcs s) (h : step s = .ok s2) :
    s.time ≤ s2.time ∧ TimeInv s2 ∧ GoodProcs s2 := by
  rcases step_cases h with ⟨hq, rfl⟩ | ⟨event, rest, g, hpop, hget, hrest⟩
  · exact ⟨le_refl _, hT, hG⟩
  · obtain ⟨hmem, hmin, hsub⟩ := popMin_spec hpop
    have htime : s.time ≤ event.time := hT event hmem
    have hTmid : ∀ x ∈ rest, event.time ≤ x.time := fun x hx => hmin x (hsub x hx)
    have hGg : GoodGen g := hG (some g) (List.get?_mem hget) g rfl
    rcases hrest with ⟨hres, rfl⟩ | ⟨y, k, hres, heff⟩
    · refine ⟨htime, ?_, ?_⟩
      · intro x hx
        exact hTmid x hx
      · intro og hog g2 hg2
        rcases List.mem_or_eq_of_mem_set hog with hm | rfl
        · exact hG og hm g2 hg2
        · cases hg2
    · obtain ⟨hyld, hk⟩ := ProcGen.resume_eq_some hres
      have hy : NonnegDelta (SimState.get_effect y) :=
        hGg [⟨event.time, event.state⟩] y hyld
      have hkG : GoodGen k := by
        subst hk
        intro h2 y2 hy2
        exact hGg _ y2 hy2
      refine ⟨?_, ?_, ?_⟩
      · rw [stepEffect_time heff]
        exact htime
      · refine stepEffect_timeinv ?_ hy heff
        intro x hx
        exact hTmid x hx
      · intro og hog g2 hg2
        rw [stepEffect_processes heff] at hog
        rcases List.mem_or_eq_of_mem_set hog with hm | rfl
        · exact hG og hm g2 hg2
        · cases hg2
          exact hkG

/-- Witness for C7 on `simPast`: the invariants hold and time advances
from 0 to 5. -/
theorem c7_dispatch_monotone_witness :
    simPast.time ≤ simPastStepped.time ∧
      TimeInv simPastStepped ∧ GoodProcs simPastStepped :=
  c7_dispatch_monotone simPast_timeinv simPast_good
    (show step simPast = .ok simPastStepped from rfl)

/-- C8: with an empty priority queue, `step` is a silent no-op except for
the step counter: it succeeds, `steps` increments by one, and the time,
process table, resource table, priority queue and trace log of the
resulting simulation are those of the input. -/
theorem c8_empty_queue_step [SimState T] (s : Simulation T)
    (h : s.future_events = []) :
    step s = .ok { s with steps := s.steps + 1 } :=
  step_of_empty s h

/-- Witness for C8 at the empty simulation over `Effect` payloads. -/
theorem c8_empty_queue_step_witness :
    step (Simulation.new : Simulation Effect) =
      .ok { (Simulation.new : Simulation Effect) with
              steps := (Simulation.new : Simulation Effect).steps + 1 } :=
  c8_empty_queue_step (Simulation.new : Simulation Effect) rfl

/-- C9: `run` with `NoEvents` is idempotent: a state returned by
`run _ _ NoEvents` satisfies the end condition, so running it again
returns it immediately and unchanged (same time, steps, trace, process
and resource tables). -/
theorem c9_run_noevents_idempotent [SimState T] {fuel : Nat} {s s2 : Simulation T}
    (h : run fuel s .NoEvents = .ok s2) (fuel2 : Nat) :
    run (fuel2 + 1) s2 .NoEvents = .ok s2 := by
  have hc := run_ok_check h
  unfold run
  simp [hc]

/-- Witness for C9: running the empty simulation twice. -/
theorem c9_run_noevents_idempotent_witness :
    run (5 + 1) (Simulation.new : Simulation Effect) .NoEvents =
      .ok (Simulation.new : Simulation Effect) :=
  c9_run_noevents_idempotent
    (show run 1 (Simulation.new : Simulation Effect) .NoEvents =
        .ok (Simulation.new : Simulation Effect) from rfl) 5

/-- C10: if the priority queue is empty while `time < t`, `run` with end
condition `Time t` never terminates: every step is a no-op that leaves
the time and the (empty) queue unchanged, the end condition never
becomes true, and the loop exhausts any amount of fuel. -/
theorem c10_run_time_livelock [SimState T] {s : Simulation T} {t : Rat}
    (hq : s.future_events = []) (ht : s.time < t) (fuel : Nat) :
    run fuel s (.Time t) = .error .outOfFuel := by
  induction fuel generalizing s with
  | zero => rfl
  | succ n ih =>
    unfold run
    have hc : check_ending_condition s (.Time t) = false := by
      simp [check_ending_condition]
      exact ht
    rw [hc]
    simp only [Bool.false_eq_true, if_false]
    rw [step_of_empty s hq]
    exact ih hq ht

/-- C4: grants are strictly FIFO over the waiters deque. Along any chain
of successful steps starting with an empty waiters deque for resource
`r`, the sequence of granted events (head pops performed by `Release`)
is an initial segment of the sequence of events that entered the deque,
in entry order — the remaining entries still sit, in order, in the final
deque. In particular if request A enters before request B, A is granted
before B. -/
theorem c4_fifo_grants [SimState T] {s : Simulation T} {l : List (Simulation T)}
    {r : Nat} (hc : IsStepChain s l) (hq : queueOf s.resources r = []) :
    chainEnters r s l =
      chainGrants r s l ++ queueOf (chainEnd s l).resources r := by
  have h := chain_queue_conservation hc r
  rw [hq] at h
  simpa using h

/-- Witness for C4 on the two-step contention chain `simFifo`: the
request of process 0 enters the deque and is granted by the release of
process 1. -/
theorem c4_fifo_grants_witness :
    chainEnters 0 simFifo [simFifo1, simFifo2] =
      chainGrants 0 simFifo [simFifo1, simFifo2] ++
        queueOf (chainEnd simFifo [simFifo1, simFifo2]).resources 0 :=
  c4_fifo_grants
    (show step simFifo = .ok simFifo1 ∧ step simFifo1 = .ok simFifo2 ∧ True from
      ⟨rfl, rfl, trivial⟩) rfl

/-- C5 counterexample: from the state reached by one `step` of the empty
simulation (step counter 1), `run` with `NSteps 3` returns with the
counter at 3: since each `step` call increments the counter by exactly
one (`step_steps`), only `3 - 1 = 2` calls were made, not `N = 3`. -/
theorem c5_nsteps_counterexample :
    (step (Simulation.new : Simulation Effect)).toOption.map Simulation.steps =
        some 1 ∧
      ((step (Simulation.new : Simulation Effect)).toOption.bind
            (fun s1 => (run 10 s1 (.NSteps 3)).toOption)).map Simulation.steps =
        some 3 ∧
      3 - 1 ≠ 3 :=
  ⟨rfl, rfl, by decide⟩

/-- C5 (amended): whenever `run` with `NSteps n` returns, the final step
counter equals `n` and the initial counter was at most `n`; since every
successful `step` call increments the counter by exactly one, the number
of `step` calls made by `run` is `n` minus the initial counter (which is
`n` itself exactly when the counter started at 0). The termination
predicate is checked before each step. -/
theorem c5_nsteps_exact [SimState T] {fuel n : Nat} {s s2 : Simulation T}
    (h : run fuel s (.NSteps n) = .ok s2) :
    s2.steps = n ∧ s.steps ≤ n := by
  induction fuel generalizing s with
  | zero => cases h
  | succ m ih =>
    unfold run at h
    split at h
    next hc =>
      cases h
      have hn : s2.steps = n := by simpa [check_ending_condition] using hc
      exact ⟨hn, le_of_eq hn⟩
    next hc =>
      split at h
      next => cases h
      next s3 hstep =>
        obtain ⟨h1, h2⟩ := ih h
        have h3 := step_steps hstep
        exact ⟨h1, by omega⟩

/-- Witness for C5 at a concrete two-step run. -/
theorem c5_nsteps_exact_witness :
    ({ (Simulation.new : Simulation Effect) with steps := 2 }).steps = 2 ∧
      (Simulation.new : Simulation Effect).steps ≤ 2 :=
  c5_nsteps_exact
    (show run 5 (Simulation.new : Simulation Effect) (.NSteps 2) =
        .ok { (Simulation.new : Simulation Effect) with steps := 2 } from rfl)

/-- Witness for C10: the empty simulation under `Time 1` burns all fuel. -/
theorem c10_run_time_livelock_witness :
    run 3 (Simulation.new : Simulation Effect) (.Time 1) = .error .outOfFuel :=
  c10_run_time_livelock rfl (by decide) 3

end Desim
